import Mathlib

/-!
Verification of the fptools library (path-addressed immutable updates over
nested dictionaries, and generic mapping transforms) against its design
specification.  The Python sources `fptools/dictionary.py` and
`ftools/mapping.py` are shallowly embedded below; machine behaviour that can
raise is modelled with `Except PyErr`.
-/

/-- A dictionary key: Python `str` or `int` (spec §3, "Key"). -/
inductive Key where
  | str : String → Key
  | int : Int → Key
deriving DecidableEq, Repr

/-- Python exceptions the embedded code can raise. -/
inductive PyErr where
  | attributeError
  | typeError
  | keyError (k : Key)
  | indexError
  | notImplementedError (received : String)
  | arityOverflow
deriving DecidableEq, Repr

/-- A Python value: `None`, scalars, or a `dict` given as its ordered list of
entries (Python dicts preserve insertion order). -/
inductive Value where
  | none  : Value
  | bool  : Bool → Value
  | int   : Int → Value
  | str   : String → Value
  | dict  : List (Key × Value) → Value
deriving Repr

mutual

def Value.decEq : (a b : Value) → Decidable (a = b)
  | .none, .none => .isTrue rfl
  | .bool a, .bool b =>
      if h : a = b then .isTrue (by rw [h])
      else .isFalse (fun e => h (Value.bool.inj e))
  | .int a, .int b =>
      if h : a = b then .isTrue (by rw [h])
      else .isFalse (fun e => h (Value.int.inj e))
  | .str a, .str b =>
      if h : a = b then .isTrue (by rw [h])
      else .isFalse (fun e => h (Value.str.inj e))
  | .dict es, .dict fs =>
      match Value.decEqList es fs with
      | .isTrue h => .isTrue (by rw [h])
      | .isFalse h => .isFalse (fun e => h (Value.dict.inj e))
  | .none, .bool _ => .isFalse (fun e => Value.noConfusion e)
  | .none, .int _ => .isFalse (fun e => Value.noConfusion e)
  | .none, .str _ => .isFalse (fun e => Value.noConfusion e)
  | .none, .dict _ => .isFalse (fun e => Value.noConfusion e)
  | .bool _, .none => .isFalse (fun e => Value.noConfusion e)
  | .bool _, .int _ => .isFalse (fun e => Value.noConfusion e)
  | .bool _, .str _ => .isFalse (fun e => Value.noConfusion e)
  | .bool _, .dict _ => .isFalse (fun e => Value.noConfusion e)
  | .int _, .none => .isFalse (fun e => Value.noConfusion e)
  | .int _, .bool _ => .isFalse (fun e => Value.noConfusion e)
  | .int _, .str _ => .isFalse (fun e => Value.noConfusion e)
  | .int _, .dict _ => .isFalse (fun e => Value.noConfusion e)
  | .str _, .none => .isFalse (fun e => Value.noConfusion e)
  | .str _, .bool _ => .isFalse (fun e => Value.noConfusion e)
  | .str _, .int _ => .isFalse (fun e => Value.noConfusion e)
  | .str _, .dict _ => .isFalse (fun e => Value.noConfusion e)
  | .dict _, .none => .isFalse (fun e => Value.noConfusion e)
  | .dict _, .bool _ => .isFalse (fun e => Value.noConfusion e)
  | .dict _, .int _ => .isFalse (fun e => Value.noConfusion e)
  | .dict _, .str _ => .isFalse (fun e => Value.noConfusion e)

def Value.decEqList : (es fs : List (Key × Value)) → Decidable (es = fs)
  | [], [] => .isTrue rfl
  | [], _ :: _ => .isFalse (fun e => List.noConfusion e)
  | _ :: _, [] => .isFalse (fun e => List.noConfusion e)
  | (k, v) :: es, (k', v') :: fs =>
      if hk : k = k' then
        match Value.decEq v v', Value.decEqList es fs with
        | .isTrue hv, .isTrue ht => .isTrue (by rw [hk, hv, ht])
        | .isFalse hv, _ =>
            .isFalse (fun e => hv (congrArg Prod.snd (List.head_eq_of_cons_eq e)))
        | _, .isFalse ht => .isFalse (fun e => ht (List.tail_eq_of_cons_eq e))
      else
        .isFalse (fun e => hk (congrArg Prod.fst (List.head_eq_of_cons_eq e)))

end

instance : DecidableEq Value := Value.decEq

instance {ε α : Type} [DecidableEq ε] [DecidableEq α] :
    DecidableEq (Except ε α) := fun a b =>
  match a, b with
  | .ok x, .ok y =>
      if h : x = y then .isTrue (by rw [h])
      else .isFalse (fun e => h (Except.ok.inj e))
  | .error x, .error y =>
      if h : x = y then .isTrue (by rw [h])
      else .isFalse (fun e => h (Except.error.inj e))
  | .ok _, .error _ => .isFalse (fun e => Except.noConfusion e)
  | .error _, .ok _ => .isFalse (fun e => Except.noConfusion e)

/-- First-match lookup in an ordered entry list (Python `d[k]` / key presence). -/
def lookup? (es : List (Key × Value)) (k : Key) : Option Value :=
  match es with
  | [] => Option.none
  | (k', v) :: rest => if k' = k then Option.some v else lookup? rest k

/-- Python `d.get(k)`: the value at `k`, or `None` when the key is absent. -/
def dictGet (es : List (Key × Value)) (k : Key) : Value :=
  (lookup? es k).getD Value.none

/-- Python `{**d, k: v}` restricted to the `k`-update: replace the value at the
first occurrence of `k` in place, else append `(k, v)` at the end.  This is
exactly how a dict display treats a repeated key. -/
def dictInsert (k : Key) (v : Value) : List (Key × Value) → List (Key × Value)
  | [] => [(k, v)]
  | (k', v') :: rest =>
      if k' = k then (k', v) :: rest else (k', v') :: dictInsert k v rest

/-- Python `del d[k]` on a fresh copy: drop the entries with key `k`. -/
def dictRemove (k : Key) (es : List (Key × Value)) : List (Key × Value) :=
  es.filter (fun e => e.1 ≠ k)

/-- Python truthiness of a value (`bool(v)` is `False`). -/
def Value.falsy : Value → Bool
  | .none => true
  | .bool b => !b
  | .int n => n == 0
  | .str s => s == ""
  | .dict es => es.isEmpty

namespace Dictionary

/-- A raw argument to `to_path`: a string, an integer, an iterable of keys, or
any other (non-iterable) value, of which only the type name is observable. -/
inductive PathArg where
  | str (s : String)
  | int (n : Int)
  | iter (l : List Key)
  | other (tyName : String)
deriving DecidableEq, Repr

/-- `to_path` from `fptools/dictionary.py`: a string or integer becomes a
one-element path; any iterable is returned unchanged; anything else raises
`NotImplementedError` naming the received type. -/
def to_path : PathArg → Except PyErr (List Key)
  | .str s => .ok [Key.str s]
  | .int n => .ok [Key.int n]
  | .iter l => .ok l
  | .other tyName => .error (.notImplementedError tyName)

/-- One step of `getitem`'s reduce:
`acc.get(item) if acc is not None else None`.  A `None` accumulator
short-circuits to `None`; a dict looks the key up with default `None`; any
other value has no `.get` and raises `AttributeError`. -/
def getStep (acc : Value) (item : Key) : Except PyErr Value :=
  match acc with
  | .none => .ok .none
  | .dict es => .ok (dictGet es item)
  | _ => .error .attributeError

/-- `getitem` from `fptools/dictionary.py`: the left fold of `getStep` over
the path, starting from the dictionary. -/
def getitem : List Key → Value → Except PyErr Value
  | [], acc => .ok acc
  | k :: rest, acc => do
      let acc' ← getStep acc k
      getitem rest acc'

/-- `setitem` from `fptools/dictionary.py`.  An empty path indexes `path[0]`
out of range; `{**_dict, ...}` requires `_dict` to be a mapping; for a longer
path the child at the head key (or a fresh `{}` when that child is falsy) is
updated recursively. -/
def setitem : List Key → Value → Value → Except PyErr Value
  | [], _, _ => .error .indexError
  | [k], value, .dict es => .ok (.dict (dictInsert k value es))
  | [_], _, _ => .error .typeError
  | k :: k' :: rest, value, .dict es =>
      let child := dictGet es k
      let seed := if child.falsy then Value.dict [] else child
      (setitem (k' :: rest) value seed).map fun c => .dict (dictInsert k c es)
  | _ :: _ :: _, _, _ => .error .typeError

/-- `delitem` from `fptools/dictionary.py`.  For a one-key path it copies the
dict and deletes the key (`del` raises `KeyError` when absent); for a longer
path it recurses into `_dict.get(path[0])` and rebuilds the level. -/
def delitem : List Key → Value → Except PyErr Value
  | [], _ => .error .indexError
  | [k], .dict es =>
      if (lookup? es k).isSome then .ok (.dict (dictRemove k es))
      else .error (.keyError k)
  | [_], _ => .error .typeError
  | k :: k' :: rest, .dict es =>
      (delitem (k' :: rest) (dictGet es k)).map fun c => .dict (dictInsert k c es)
  | _ :: _ :: _, _ => .error .typeError

/-- `update` from `fptools/dictionary.py`: read the current value at `path`,
apply the modifier, and write the result back with `setitem`. -/
def update (path : List Key) (modifier : Value → Value) (d : Value) :
    Except PyErr Value := do
  let value ← getitem path d
  setitem path (modifier value) d

/-- The entry list built by `pick`'s dict comprehension
`{key: _dict.get(key) for key in keys}`. -/
def pickEntries (keys : List Key) (es : List (Key × Value)) :
    List (Key × Value) :=
  keys.foldl (fun acc k => dictInsert k (dictGet es k) acc) []

/-- `pick` from `fptools/dictionary.py`: a dict comprehension over the
requested keys; `_dict.get` requires `_dict` to be a dict. -/
def pick : List Key → Value → Except PyErr Value
  | keys, .dict es => .ok (.dict (pickEntries keys es))
  | _, _ => .error .attributeError

end Dictionary

/-! ### Entry-list lemmas -/

theorem lookup_insert_self (k : Key) (v : Value) (es : List (Key × Value)) :
    lookup? (dictInsert k v es) k = Option.some v := by
  induction es with
  | nil => simp [dictInsert, lookup?]
  | cons e rest ih =>
      obtain ⟨k', v'⟩ := e
      by_cases h : k' = k <;> simp [dictInsert, lookup?, h, ih]

theorem dictGet_insert_self (k : Key) (v : Value) (es : List (Key × Value)) :
    dictGet (dictInsert k v es) k = v := by
  simp [dictGet, lookup_insert_self]

theorem lookup_insert_ne (k k' : Key) (v : Value) (es : List (Key × Value))
    (h : k' ≠ k) : lookup? (dictInsert k v es) k' = lookup? es k' := by
  induction es with
  | nil => simp [dictInsert, lookup?, Ne.symm h]
  | cons e rest ih =>
      obtain ⟨k₀, v₀⟩ := e
      by_cases h₀ : k₀ = k
      · have hne : k₀ ≠ k' := fun e => h ((Eq.symm e).trans h₀)
        simp [dictInsert, lookup?, h₀, hne, Ne.symm h]
      · simp [dictInsert, lookup?, h₀, ih]

theorem dictInsert_lookup_self (k : Key) (v : Value) (es : List (Key × Value))
    (h : lookup? es k = Option.some v) : dictInsert k v es = es := by
  induction es with
  | nil => simp [lookup?] at h
  | cons e rest ih =>
      obtain ⟨k', v'⟩ := e
      by_cases hk : k' = k
      · simp [lookup?, hk] at h
        simp [dictInsert, hk, h]
      · simp [lookup?, hk] at h
        simp [dictInsert, hk, ih h]

theorem except_map_ok {ε α β : Type} (f : α → β) (x : Except ε α) (y : β)
    (h : x.map f = .ok y) : ∃ z, x = .ok z ∧ y = f z := by
  cases x with
  | ok z =>
      refine ⟨z, rfl, ?_⟩
      simpa [Except.map] using h.symm
  | error e => simp [Except.map] at h

namespace Dictionary

theorem getStep_dict (es : List (Key × Value)) (k : Key) :
    getStep (.dict es) k = .ok (dictGet es k) := rfl

theorem getitem_cons (k : Key) (rest : List Key) (d : Value) :
    getitem (k :: rest) d =
      (getStep d k) >>= fun acc => getitem rest acc := rfl

theorem getitem_none_input (p : List Key) :
    getitem p Value.none = .ok Value.none := by
  induction p with
  | nil => rfl
  | cons k rest ih =>
      simp [getitem_cons, getStep, Bind.bind, Except.bind, ih]

theorem getitem_append (p q : List Key) (d : Value) :
    getitem (p ++ q) d = (getitem p d) >>= fun acc => getitem q acc := by
  induction p generalizing d with
  | nil => simp [getitem, Bind.bind, Except.bind]
  | cons k rest ih =>
      simp only [List.cons_append, getitem_cons]
      cases getStep d k with
      | ok acc => simp [Bind.bind, Except.bind, ih]
      | error e => simp [Bind.bind, Except.bind]

/-- **C1.** For every path `P`, value `V`, and mapping `M` on which `setitem`
succeeds (invalid shapes raise, per the spec's fail-fast error policy),
reading the path right after setting it returns the value that was set:
`getitem(P, setitem(P, V, M)) == V`. -/
theorem getitem_after_setitem :
    ∀ (p : List Key) (v d d' : Value),
      setitem p v d = .ok d' → getitem p d' = .ok v
  | [], v, d, d' => by simp [setitem]
  | [k], v, d, d' => by
      cases d with
      | dict es =>
          intro h
          simp only [setitem, Except.ok.injEq] at h
          subst h
          simp [getitem, getitem_cons, getStep_dict, Bind.bind, Except.bind,
            dictGet_insert_self]
      | none => intro h; simp [setitem] at h
      | bool b => intro h; simp [setitem] at h
      | int n => intro h; simp [setitem] at h
      | str s => intro h; simp [setitem] at h
  | k :: k' :: rest, v, d, d' => by
      cases d with
      | dict es =>
          intro h
          simp only [setitem] at h
          obtain ⟨c, hc, hd'⟩ := except_map_ok _ _ _ h
          subst hd'
          have ih := getitem_after_setitem (k' :: rest) v _ _ hc
          simp [getitem_cons, getStep_dict, Bind.bind, Except.bind,
            dictGet_insert_self, ih]
      | none => intro h; simp [setitem] at h
      | bool b => intro h; simp [setitem] at h
      | int n => intro h; simp [setitem] at h
      | str s => intro h; simp [setitem] at h

/-- Witness for `getitem_after_setitem` at a concrete input
(`setitem(["x", "y"], 1, {})` from the spec's scenario 4). -/
theorem getitem_after_setitem_witness :
    setitem [Key.str "x", Key.str "y"] (Value.int 1) (Value.dict []) =
      .ok (Value.dict [(Key.str "x", Value.dict [(Key.str "y", Value.int 1)])]) ∧
    getitem [Key.str "x", Key.str "y"]
      (Value.dict [(Key.str "x", Value.dict [(Key.str "y", Value.int 1)])]) =
      .ok (Value.int 1) :=
  ⟨by decide, getitem_after_setitem [Key.str "x", Key.str "y"] (Value.int 1)
    (Value.dict []) _ (by decide)⟩

/-- A path is fully present in a value: every key along the path exists, and
every intermediate value is a dictionary. -/
def pathPresent : List Key → Value → Bool
  | [], _ => false
  | [k], .dict es => (lookup? es k).isSome
  | k :: k' :: rest, .dict es =>
      match lookup? es k with
      | Option.some child => pathPresent (k' :: rest) child
      | Option.none => false
  | _, _ => false

theorem pathPresent_not_falsy (p : List Key) (d : Value)
    (h : pathPresent p d = true) : d.falsy = false := by
  cases p with
  | nil => simp [pathPresent] at h
  | cons k rest =>
      cases d with
      | dict es =>
          cases es with
          | nil =>
              cases rest with
              | nil => simp [pathPresent, lookup?] at h
              | cons k' rest' => simp [pathPresent, lookup?] at h
          | cons e es' => simp [Value.falsy]
      | none => cases rest <;> simp [pathPresent] at h
      | bool b => cases rest <;> simp [pathPresent] at h
      | int n => cases rest <;> simp [pathPresent] at h
      | str s => cases rest <;> simp [pathPresent] at h

theorem lookup_dictGet (es : List (Key × Value)) (k : Key) (v : Value)
    (h : lookup? es k = Option.some v) : dictGet es k = v := by
  simp [dictGet, h]

/-- On a fully present path, `getitem` succeeds and `setitem` of the value it
returns reproduces the original mapping exactly. -/
theorem getitem_setitem_roundtrip :
    ∀ (p : List Key) (d : Value), pathPresent p d = true →
      ∃ v, getitem p d = .ok v ∧ setitem p v d = .ok d
  | [], d => by simp [pathPresent]
  | [k], d => by
      cases d with
      | dict es =>
          intro h
          simp only [pathPresent, Option.isSome_iff_exists] at h
          obtain ⟨v, hv⟩ := h
          refine ⟨dictGet es k, ?_, ?_⟩
          · simp [getitem, getitem_cons, getStep_dict, Bind.bind, Except.bind]
          · have hd : dictGet es k = v := lookup_dictGet es k v hv
            simp [setitem, hd, dictInsert_lookup_self k v es hv]
      | none => intro h; simp [pathPresent] at h
      | bool b => intro h; simp [pathPresent] at h
      | int n => intro h; simp [pathPresent] at h
      | str s => intro h; simp [pathPresent] at h
  | k :: k' :: rest, d => by
      cases d with
      | dict es =>
          intro h
          simp only [pathPresent] at h
          cases hc : lookup? es k with
          | none => rw [hc] at h; simp at h
          | some child =>
              rw [hc] at h
              simp only at h
              obtain ⟨v, hg, hs⟩ := getitem_setitem_roundtrip (k' :: rest) child h
              refine ⟨v, ?_, ?_⟩
              · simp [getitem_cons, getStep_dict, Bind.bind, Except.bind,
                  lookup_dictGet es k child hc, hg]
              · have hfal : child.falsy = false := pathPresent_not_falsy _ _ h
                simp [setitem, lookup_dictGet es k child hc, hfal, hs,
                  Except.map, dictInsert_lookup_self k child es hc]
      | none => intro h; simp [pathPresent] at h
      | bool b => intro h; simp [pathPresent] at h
      | int n => intro h; simp [pathPresent] at h
      | str s => intro h; simp [pathPresent] at h

/-- **C3 (counterexample).** The claim fails when the path is absent:
`update(["a"], identity, {})` returns `{"a": None}`, not `{}` — `getitem`
reads `None` for the absent path and `setitem` then creates it. -/
theorem update_identity_counterexample :
    update [Key.str "a"] (fun v => v) (Value.dict []) =
        .ok (Value.dict [(Key.str "a", Value.none)]) ∧
      update [Key.str "a"] (fun v => v) (Value.dict []) ≠
        .ok (Value.dict []) := by
  constructor
  · decide
  · decide

/-- **C3 (amended).** Updating with the identity modifier is a no-op,
`update(P, identity, M) == M`, for every mapping `M` and every path `P` that
is fully present in `M` (each key along `P` exists and each intermediate value
is a mapping); when the path is absent, `update` instead inserts it with value
`None`. -/
theorem update_identity (p : List Key) (d : Value)
    (h : pathPresent p d = true) : update p (fun v => v) d = .ok d := by
  obtain ⟨v, hg, hs⟩ := getitem_setitem_roundtrip p d h
  simp [update, hg, hs, Bind.bind, Except.bind]

/-- Witness for `update_identity` at a concrete input. -/
theorem update_identity_witness :
    pathPresent [Key.str "a", Key.str "b"]
        (Value.dict [(Key.str "a", Value.dict [(Key.str "b", Value.int 5)])]) = true ∧
      update [Key.str "a", Key.str "b"] (fun v => v)
        (Value.dict [(Key.str "a", Value.dict [(Key.str "b", Value.int 5)])]) =
      .ok (Value.dict [(Key.str "a", Value.dict [(Key.str "b", Value.int 5)])]) :=
  ⟨by decide, update_identity _ _ (by decide)⟩

/-- **C6.** `getitem` never raises for a missing key: whenever the walk has
reached a dictionary lacking the next key, the lookup yields `None` and the
remainder of the path short-circuits, so the whole call returns `None`. -/
theorem getitem_missing_key_returns_none
    (p₁ : List Key) (k : Key) (p₂ : List Key) (d : Value)
    (es : List (Key × Value))
    (h₁ : getitem p₁ d = .ok (.dict es))
    (h₂ : lookup? es k = Option.none) :
    getitem (p₁ ++ k :: p₂) d = .ok Value.none := by
  rw [getitem_append, h₁]
  simp [Bind.bind, Except.bind, getitem_cons, getStep_dict, dictGet, h₂,
    getitem_none_input]

/-- Witness for `getitem_missing_key_returns_none`: the spec's scenario 2,
`getitem(["a", "x"], {"a": {"b": 5}})` returns `None`. -/
theorem getitem_missing_key_returns_none_witness :
    getitem [Key.str "a"]
        (Value.dict [(Key.str "a", Value.dict [(Key.str "b", Value.int 5)])]) =
      .ok (Value.dict [(Key.str "b", Value.int 5)]) ∧
    lookup? [(Key.str "b", Value.int 5)] (Key.str "x") = Option.none ∧
    getitem [Key.str "a", Key.str "x"]
        (Value.dict [(Key.str "a", Value.dict [(Key.str "b", Value.int 5)])]) =
      .ok Value.none :=
  ⟨by decide, by decide,
    getitem_missing_key_returns_none [Key.str "a"] (Key.str "x") []
      (Value.dict [(Key.str "a", Value.dict [(Key.str "b", Value.int 5)])])
      [(Key.str "b", Value.int 5)] (by decide) (by decide)⟩

end Dictionary

/-! ### Well-formed values (every nested dict has pairwise distinct keys, the
invariant of every actual Python dict) -/

mutual

def Value.wf : Value → Bool
  | .dict es => wfEntries es
  | _ => true

def wfEntries : List (Key × Value) → Bool
  | [] => true
  | (k, v) :: rest => (lookup? rest k).isNone && Value.wf v && wfEntries rest

end

theorem wfEntries_lookup (es : List (Key × Value)) (k : Key) (v : Value)
    (hw : wfEntries es = true) (h : lookup? es k = Option.some v) :
    Value.wf v = true := by
  induction es with
  | nil => simp [lookup?] at h
  | cons e rest ih =>
      obtain ⟨k₀, v₀⟩ := e
      simp only [wfEntries, Bool.and_eq_true] at hw
      by_cases hk : k₀ = k
      · subst hk
        simp only [lookup?, if_pos] at h
        exact (Option.some.inj h) ▸ hw.1.2
      · simp only [lookup?, if_neg hk] at h
        exact ih hw.2 h

theorem map_update_of_lookup_none (k : Key) (f : Value → Value)
    (es : List (Key × Value)) (h : lookup? es k = Option.none) :
    (es.map fun e => if e.1 = k then (e.1, f e.2) else e) = es := by
  induction es with
  | nil => rfl
  | cons e rest ih =>
      obtain ⟨k₀, v₀⟩ := e
      by_cases hk : k₀ = k
      · simp [lookup?, hk] at h
      · simp only [lookup?, if_neg hk] at h
        simp [hk, ih h]

theorem map_update_of_lookup_some (k : Key) (f : Value → Value)
    (es : List (Key × Value)) (child : Value)
    (hw : wfEntries es = true) (h : lookup? es k = Option.some child) :
    (es.map fun e => if e.1 = k then (e.1, f e.2) else e) =
      dictInsert k (f child) es := by
  induction es with
  | nil => simp [lookup?] at h
  | cons e rest ih =>
      obtain ⟨k₀, v₀⟩ := e
      simp only [wfEntries, Bool.and_eq_true] at hw
      by_cases hk : k₀ = k
      · subst hk
        simp only [lookup?, if_pos] at h
        obtain rfl := Option.some.inj h
        have hn : lookup? rest k₀ = Option.none :=
          Option.isNone_iff_eq_none.mp hw.1.1
        simp [dictInsert, map_update_of_lookup_none k₀ f rest hn]
      · simp only [lookup?, if_neg hk] at h
        simp [dictInsert, hk, ih hw.2 h]

namespace Dictionary

/-- The descent `delitem` performs to the parent of the path's final key:
follow `get`-with-default-`None` through dictionaries. -/
def walkTo : List Key → Value → Option Value
  | [], d => Option.some d
  | k :: rest, .dict es => walkTo rest (dictGet es k)
  | _ :: _, _ => Option.none

/-- Modelled from the claim's words: the mapping with exactly the leaf key at
the end of the path removed — every entry off the path, and every other key of
the parent, is left as it was. -/
def removeLeaf : List Key → Key → Value → Value
  | [], k, .dict es => .dict (dictRemove k es)
  | p :: rest, k, .dict es =>
      .dict (es.map fun e => if e.1 = p then (e.1, removeLeaf rest k e.2) else e)
  | _, _, d => d

theorem delitem_cons_unfold (k : Key) (q : List Key) (hq : q ≠ [])
    (es : List (Key × Value)) :
    delitem (k :: q) (.dict es) =
      (delitem q (dictGet es k)).map fun c => .dict (dictInsert k c es) := by
  cases q with
  | nil => exact absurd rfl hq
  | cons a l => rfl

/-- **C5.** `delitem(P, M)` raises the missing-key error exactly when `P`'s
final key is absent from its parent mapping at delete time (no silent no-op);
when the final key is present, it returns `M` with exactly that leaf key
removed. -/
theorem delitem_spec :
    ∀ (p : List Key) (k : Key) (d : Value) (es : List (Key × Value)),
      Value.wf d = true →
      walkTo p d = Option.some (.dict es) →
      ((lookup? es k = Option.none →
          delitem (p ++ [k]) d = .error (.keyError k)) ∧
        (∀ v, lookup? es k = Option.some v →
          delitem (p ++ [k]) d = .ok (removeLeaf p k d)))
  | [], k, d, es => by
      intro hw hwalk
      simp only [walkTo, Option.some.injEq] at hwalk
      subst hwalk
      constructor
      · intro habs
        simp [delitem, habs]
      · intro v hv
        simp [delitem, hv, removeLeaf]
  | p₀ :: rest, k, d, es => by
      intro hw hwalk
      cases d with
      | dict es₀ =>
          simp only [walkTo] at hwalk
          have hchild : lookup? es₀ p₀ = Option.some (dictGet es₀ p₀) := by
            cases hc : lookup? es₀ p₀ with
            | some c => simp [dictGet, hc]
            | none =>
                rw [show dictGet es₀ p₀ = Value.none by simp [dictGet, hc]]
                  at hwalk
                cases rest with
                | nil => simp [walkTo] at hwalk
                | cons a l => simp [walkTo] at hwalk
          have hwchild : Value.wf (dictGet es₀ p₀) = true :=
            wfEntries_lookup es₀ p₀ _ hw hchild
          have ih := delitem_spec rest k (dictGet es₀ p₀) es hwchild hwalk
          have hunfold := delitem_cons_unfold p₀ (rest ++ [k])
            (by simp) es₀
          constructor
          · intro habs
            rw [List.cons_append, hunfold, ih.1 habs]
            rfl
          · intro v hv
            rw [List.cons_append, hunfold, ih.2 v hv]
            simp only [Except.map, Except.ok.injEq, removeLeaf]
            rw [map_update_of_lookup_some p₀ (removeLeaf rest k) es₀
              (dictGet es₀ p₀) hw hchild]
      | none => simp [walkTo] at hwalk
      | bool b => simp [walkTo] at hwalk
      | int n => simp [walkTo] at hwalk
      | str s => simp [walkTo] at hwalk

/-- Witness for `delitem_spec`: in `{"a": {"b": 5}}` the parent of path
`["a", "x"]` lacks `"x"` (so deleting raises `KeyError`), while path
`["a", "b"]` is present (so deleting returns `{"a": {}}`). -/
theorem delitem_spec_witness :
    Value.wf (Value.dict [(Key.str "a", Value.dict [(Key.str "b", Value.int 5)])]) =
        true ∧
      walkTo [Key.str "a"]
        (Value.dict [(Key.str "a", Value.dict [(Key.str "b", Value.int 5)])]) =
        Option.some (Value.dict [(Key.str "b", Value.int 5)]) ∧
      delitem [Key.str "a", Key.str "x"]
        (Value.dict [(Key.str "a", Value.dict [(Key.str "b", Value.int 5)])]) =
        .error (.keyError (Key.str "x")) ∧
      delitem [Key.str "a", Key.str "b"]
        (Value.dict [(Key.str "a", Value.dict [(Key.str "b", Value.int 5)])]) =
        .ok (Value.dict [(Key.str "a", Value.dict [])]) :=
  ⟨by decide, by decide,
    (delitem_spec [Key.str "a"] (Key.str "x")
      (Value.dict [(Key.str "a", Value.dict [(Key.str "b", Value.int 5)])])
      [(Key.str "b", Value.int 5)] (by decide) (by decide)).1 (by decide),
    (delitem_spec [Key.str "a"] (Key.str "b")
      (Value.dict [(Key.str "a", Value.dict [(Key.str "b", Value.int 5)])])
      [(Key.str "b", Value.int 5)] (by decide) (by decide)).2
      (Value.int 5) (by decide)⟩

/-- **C8.** `to_path` wraps a string or an integer into a single-element path
(a string is never iterated character-by-character, because the string check
comes before the iterable check), returns any other iterable unchanged in
order, and for every non-string, non-integer, non-iterable value raises the
invalid-path error naming the received type. -/
theorem to_path_spec (s : String) (n : Int) (l : List Key) (t : String) :
    to_path (.str s) = .ok [Key.str s] ∧
      to_path (.int n) = .ok [Key.int n] ∧
      to_path (.iter l) = .ok l ∧
      to_path (.other t) = .error (.notImplementedError t) :=
  ⟨rfl, rfl, rfl, rfl⟩

end Dictionary

namespace Mapping

/-- The observable shape of a concrete mapping type `T` in
`ftools/mapping.py`: its name, whether `T()` (a zero-argument construction)
succeeds, and whether `copy.copy(mapping)` succeeds. -/
structure MTy where
  name : String
  hasZeroCtor : Bool
  copyable : Bool
deriving DecidableEq, Repr

/-- The builtin `dict` type. -/
def dictTy : MTy := ⟨"dict", true, true⟩

/-- A mapping-like object: its concrete type together with its ordered
entries. -/
structure GMapping where
  ty : MTy
  entries : List (Key × Value)
deriving DecidableEq, Repr

/-- `create_empty` from `ftools/mapping.py`: `type(mapping)()`, a new empty
instance of the same concrete type.  When the type offers no zero-argument
construction the call raises `TypeError`; there is no `try`/`except` around
it. -/
def create_empty (m : GMapping) : Except PyErr GMapping :=
  if m.ty.hasZeroCtor then .ok ⟨m.ty, []⟩ else .error .typeError

/-- `pick` from `ftools/mapping.py`: seed `create_empty`, then assign
`mapping.get(item)` for each requested key in order. -/
def pick (keys : List Key) (m : GMapping) : Except PyErr GMapping :=
  (create_empty m).map fun e =>
    ⟨e.ty, keys.foldl (fun acc k => dictInsert k (dictGet m.entries k) acc)
      e.entries⟩

/-- `pick_by_value` from `ftools/mapping.py`: keep the entries whose value
satisfies the predicate. -/
def pick_by_value (predicate : Value → Bool) (m : GMapping) :
    Except PyErr GMapping :=
  (create_empty m).map fun e =>
    ⟨e.ty, m.entries.foldl
      (fun acc kv => if predicate kv.2 then dictInsert kv.1 kv.2 acc else acc)
      e.entries⟩

/-- `pick_by_key` from `ftools/mapping.py`: keep the entries whose key
satisfies the predicate. -/
def pick_by_key (predicate : Key → Bool) (m : GMapping) :
    Except PyErr GMapping :=
  (create_empty m).map fun e =>
    ⟨e.ty, m.entries.foldl
      (fun acc kv => if predicate kv.1 then dictInsert kv.1 kv.2 acc else acc)
      e.entries⟩

/-- `map_values` from `ftools/mapping.py`: apply the modifier to every
value. -/
def map_values (modifier : Value → Value) (m : GMapping) :
    Except PyErr GMapping :=
  (create_empty m).map fun e =>
    ⟨e.ty, m.entries.foldl (fun acc kv => dictInsert kv.1 (modifier kv.2) acc)
      e.entries⟩

/-- `map_keys` from `ftools/mapping.py`: apply the modifier to every key;
later entries overwrite earlier ones on a collision. -/
def map_keys (modifier : Key → Key) (m : GMapping) :
    Except PyErr GMapping :=
  (create_empty m).map fun e =>
    ⟨e.ty, m.entries.foldl (fun acc kv => dictInsert (modifier kv.1) kv.2 acc)
      e.entries⟩

end Mapping

/-! ### C4: no fallback exists when the concrete type cannot be constructed -/

/-- A mapping type with no zero-argument constructor. -/
def frozenTy : Mapping.MTy := ⟨"frozenmap", false, true⟩

/-- **C4 (counterexample).** On a mapping whose concrete type cannot be
constructed with zero arguments, every generic transform raises `TypeError`
from `type(mapping)()` instead of falling back to a generic mapping — the
claimed fallback does not exist in `create_empty`. -/
theorem no_ctor_fallback_counterexample :
    Mapping.pick [Key.str "a"]
        ⟨frozenTy, [(Key.str "a", Value.int 1)]⟩ = .error .typeError ∧
      Mapping.pick_by_key (fun _ => true)
        ⟨frozenTy, [(Key.str "a", Value.int 1)]⟩ = .error .typeError ∧
      Mapping.pick_by_value (fun _ => true)
        ⟨frozenTy, [(Key.str "a", Value.int 1)]⟩ = .error .typeError ∧
      Mapping.map_keys (fun k => k)
        ⟨frozenTy, [(Key.str "a", Value.int 1)]⟩ = .error .typeError ∧
      Mapping.map_values (fun v => v)
        ⟨frozenTy, [(Key.str "a", Value.int 1)]⟩ = .error .typeError := by
  refine ⟨rfl, rfl, rfl, rfl, rfl⟩

/-- **C4 (amended).** For every mapping whose concrete type offers no
zero-argument construction, the generic transforms (`pick`, `pick_by_key`,
`pick_by_value`, `map_keys`, `map_values`) do not fall back: they all
propagate the `TypeError` raised by `type(mapping)()`. -/
theorem no_ctor_transforms_raise (m : Mapping.GMapping)
    (h : m.ty.hasZeroCtor = false)
    (keys : List Key) (pk : Key → Bool) (pv : Value → Bool)
    (fk : Key → Key) (fv : Value → Value) :
    Mapping.pick keys m = .error .typeError ∧
      Mapping.pick_by_key pk m = .error .typeError ∧
      Mapping.pick_by_value pv m = .error .typeError ∧
      Mapping.map_keys fk m = .error .typeError ∧
      Mapping.map_values fv m = .error .typeError := by
  refine ⟨?_, ?_, ?_, ?_, ?_⟩ <;>
    simp [Mapping.pick, Mapping.pick_by_key, Mapping.pick_by_value,
      Mapping.map_keys, Mapping.map_values, Mapping.create_empty, h,
      Except.map]

/-- Witness for `no_ctor_transforms_raise` at a concrete unconstructible
type. -/
theorem no_ctor_transforms_raise_witness :
    (Mapping.GMapping.mk frozenTy []).ty.hasZeroCtor = false ∧
      Mapping.pick [] ⟨frozenTy, []⟩ = .error .typeError :=
  ⟨rfl, (no_ctor_transforms_raise ⟨frozenTy, []⟩ rfl []
    (fun _ => true) (fun _ => true) (fun k => k) (fun v => v)).1⟩

namespace Dictionary

theorem lookup_pick_foldl (k : Key) (es : List (Key × Value)) :
    ∀ (keys : List Key) (acc : List (Key × Value)),
      lookup? (keys.foldl (fun a k' => dictInsert k' (dictGet es k') a) acc) k =
        if k ∈ keys then Option.some (dictGet es k) else lookup? acc k := by
  intro keys
  induction keys with
  | nil => intro acc; simp
  | cons k₀ keys' ih =>
      intro acc
      simp only [List.foldl_cons]
      rw [ih]
      by_cases hk : k ∈ keys'
      · simp [hk, List.mem_cons]
      · by_cases hk₀ : k = k₀
        · subst hk₀
          simp [hk, lookup_insert_self]
        · simp [hk, hk₀, lookup_insert_ne k₀ k (dictGet es k₀) acc hk₀,
            List.mem_cons]

theorem pickEntries_lookup (keys : List Key) (es : List (Key × Value))
    (k : Key) :
    lookup? (pickEntries keys es) k =
      if k ∈ keys then Option.some (dictGet es k) else Option.none := by
  simpa [pickEntries, lookup?] using lookup_pick_foldl k es keys []

/-- **C7.** `pick(keys, M)` contains exactly the requested keys — the lookup
of a key in the result is its value in `M` (or `None` when absent, the entry
is not omitted) precisely when the key was requested.  This holds for the
`pick` of `fptools/dictionary.py` on every dict, and the `pick` of
`ftools/mapping.py` builds exactly the same entries into a fresh instance of
the input's type whenever that type is constructible; in particular
`pick(["a", "c"], {"a": 1, "b": 2})` is `{"a": 1, "c": None}`. -/
theorem pick_exact_keys (keys : List Key) (es : List (Key × Value)) (k : Key)
    (m : Mapping.GMapping) (h : m.ty.hasZeroCtor = true) :
    pick keys (.dict es) = .ok (.dict (pickEntries keys es)) ∧
      lookup? (pickEntries keys es) k =
        (if k ∈ keys then Option.some (dictGet es k) else Option.none) ∧
      Mapping.pick keys m = .ok ⟨m.ty, pickEntries keys m.entries⟩ ∧
      pick [Key.str "a", Key.str "c"]
          (Value.dict [(Key.str "a", Value.int 1), (Key.str "b", Value.int 2)]) =
        .ok (Value.dict [(Key.str "a", Value.int 1), (Key.str "c", Value.none)]) := by
  refine ⟨rfl, pickEntries_lookup keys es k, ?_, by decide⟩
  simp [Mapping.pick, Mapping.create_empty, h, Except.map, pickEntries]

/-- Witness for `pick_exact_keys` at a concrete constructible mapping. -/
theorem pick_exact_keys_witness :
    Mapping.dictTy.hasZeroCtor = true ∧
      Mapping.pick [Key.str "a"]
          ⟨Mapping.dictTy, [(Key.str "b", Value.int 2)]⟩ =
        .ok ⟨Mapping.dictTy, [(Key.str "a", Value.none)]⟩ :=
  ⟨rfl, (pick_exact_keys [Key.str "a"] [] (Key.str "a")
    ⟨Mapping.dictTy, [(Key.str "b", Value.int 2)]⟩ rfl).2.2.1⟩

end Dictionary

/-! ### Curry Transformer (spec §4.1, §3 "Curried Function") -/

/-- Modelled from the spec: the Curried Function of §3 — the implementation
file `fptools/callable.py` is not among the provided sources.  A curried
function is the wrapped function of declared arity `N` together with the
ordered sequence of already-bound leading arguments, each stage an
independent immutable snapshot. -/
structure Curried where
  arity : Nat
  fn : List Value → Value
  bound : List Value

/-- Modelled from the spec (§4.1): calling a curried function with `k` new
arguments concatenates them to the bound arguments; with `bound + k = N` the
original function is invoked on all `N` arguments, with `bound + k < N` a new
independent snapshot is returned, and with `bound + k > N` the arity-overflow
error is reported. -/
def Curried.call (c : Curried) (args : List Value) :
    Except PyErr (Curried ⊕ Value) :=
  let all := c.bound ++ args
  if all.length > c.arity then .error .arityOverflow
  else if all.length = c.arity then .ok (.inr (c.fn all))
  else .ok (.inl ⟨c.arity, c.fn, all⟩)

/-- Modelled from the spec (§4.1): `curry` wraps a function of declared arity
`N` with no arguments bound yet. -/
def curry (arity : Nat) (fn : List Value → Value) : Curried := ⟨arity, fn, []⟩

/-- **C9.** For a function `f` of declared arity 3 and all arguments
`a, b, c`, staged partial application agrees with the direct call:
`curry(f)(a)(b)(c)`, `curry(f)(a, b)(c)` and `curry(f)(a, b, c)` all evaluate
to `f(a, b, c)`, the intermediate stages being the snapshots with one,
respectively two, bound arguments. -/
theorem curry_staging (f : List Value → Value) (a b c : Value) :
    (curry 3 f).call [a, b, c] = .ok (.inr (f [a, b, c])) ∧
      (curry 3 f).call [a, b] = .ok (.inl ⟨3, f, [a, b]⟩) ∧
      (curry 3 f).call [a] = .ok (.inl ⟨3, f, [a]⟩) ∧
      (Curried.mk 3 f [a]).call [b] = .ok (.inl ⟨3, f, [a, b]⟩) ∧
      (Curried.mk 3 f [a, b]).call [c] = .ok (.inr (f [a, b, c])) :=
  ⟨rfl, rfl, rfl, rfl, rfl⟩

namespace Typed

/-- A Python value with the concrete type of every mapping-like container
tracked, to observe which container types the path-based update engine
returns. -/
inductive TValue where
  | none  : TValue
  | bool  : Bool → TValue
  | int   : Int → TValue
  | str   : String → TValue
  | map   : Mapping.MTy → List (Key × TValue) → TValue

/-- First-match lookup, as in `lookup?`. -/
def lookupT? (es : List (Key × TValue)) (k : Key) : Option TValue :=
  match es with
  | [] => Option.none
  | (k', v) :: rest => if k' = k then Option.some v else lookupT? rest k

/-- `mapping.get(k)` with default `None`, as in `dictGet`. -/
def dictGetT (es : List (Key × TValue)) (k : Key) : TValue :=
  (lookupT? es k).getD TValue.none

/-- Replace-first-or-append update, as in `dictInsert`. -/
def dictInsertT (k : Key) (v : TValue) :
    List (Key × TValue) → List (Key × TValue)
  | [] => [(k, v)]
  | (k', v') :: rest =>
      if k' = k then (k', v) :: rest else (k', v') :: dictInsertT k v rest

/-- Python truthiness, as in `Value.falsy`. -/
def TValue.falsy : TValue → Bool
  | .none => true
  | .bool b => !b
  | .int n => n == 0
  | .str s => s == ""
  | .map _ es => es.isEmpty

/-- `setitem` from `fptools/dictionary.py` with container types tracked: the
dict display `{**_dict, ...}` accepts any mapping but always builds a builtin
`dict`. -/
def setitem : List Key → TValue → TValue → Except PyErr TValue
  | [], _, _ => .error .indexError
  | [k], v, .map _ es => .ok (.map Mapping.dictTy (dictInsertT k v es))
  | [_], _, _ => .error .typeError
  | k :: k' :: rest, v, .map _ es =>
      let child := dictGetT es k
      let seed := if child.falsy then TValue.map Mapping.dictTy [] else child
      (setitem (k' :: rest) v seed).map fun c =>
        .map Mapping.dictTy (dictInsertT k c es)
  | _ :: _ :: _, _, _ => .error .typeError

/-- `delitem` from `fptools/dictionary.py` with container types tracked: both
the rebuilt levels and the final shallow copy are dict displays, hence
builtin dicts. -/
def delitem : List Key → TValue → Except PyErr TValue
  | [], _ => .error .indexError
  | [k], .map _ es =>
      if (lookupT? es k).isSome then
        .ok (.map Mapping.dictTy (es.filter (fun e => e.1 ≠ k)))
      else .error (.keyError k)
  | [_], _ => .error .typeError
  | k :: k' :: rest, .map _ es =>
      (delitem (k' :: rest) (dictGetT es k)).map fun c =>
        .map Mapping.dictTy (dictInsertT k c es)
  | _ :: _ :: _, _ => .error .typeError

/-- One step of `getitem`'s reduce, as in `Dictionary.getStep`. -/
def getStep (acc : TValue) (item : Key) : Except PyErr TValue :=
  match acc with
  | .none => .ok .none
  | .map _ es => .ok (dictGetT es item)
  | _ => .error .attributeError

/-- `getitem` from `fptools/dictionary.py` with container types tracked. -/
def getitem : List Key → TValue → Except PyErr TValue
  | [], acc => .ok acc
  | k :: rest, acc => do
      let acc' ← getStep acc k
      getitem rest acc'

/-- `update` from `fptools/dictionary.py` with container types tracked. -/
def update (path : List Key) (modifier : TValue → TValue) (d : TValue) :
    Except PyErr TValue := do
  let value ← getitem path d
  setitem path (modifier value) d

/-- The result's top level is a builtin `dict`, and so is every rebuilt
ancestor along the path. -/
def dictAlong : List Key → TValue → Bool
  | [], _ => true
  | [_], .map ty _ => decide (ty = Mapping.dictTy)
  | k :: k' :: rest, .map ty es =>
      decide (ty = Mapping.dictTy) && dictAlong (k' :: rest) (dictGetT es k)
  | _, _ => false

theorem lookupT_insert_self (k : Key) (v : TValue)
    (es : List (Key × TValue)) :
    lookupT? (dictInsertT k v es) k = Option.some v := by
  induction es with
  | nil => simp [dictInsertT, lookupT?]
  | cons e rest ih =>
      obtain ⟨k', v'⟩ := e
      by_cases h : k' = k <;> simp [dictInsertT, lookupT?, h, ih]

theorem dictGetT_insert_self (k : Key) (v : TValue)
    (es : List (Key × TValue)) :
    dictGetT (dictInsertT k v es) k = v := by
  simp [dictGetT, lookupT_insert_self]

theorem setitem_dictAlong :
    ∀ (p : List Key) (v d r : TValue),
      setitem p v d = .ok r → dictAlong p r = true
  | [], v, d, r => by simp [setitem]
  | [k], v, d, r => by
      cases d with
      | map ty es =>
          intro h
          simp only [setitem, Except.ok.injEq] at h
          subst h
          simp [dictAlong]
      | none => intro h; simp [setitem] at h
      | bool b => intro h; simp [setitem] at h
      | int n => intro h; simp [setitem] at h
      | str s => intro h; simp [setitem] at h
  | k :: k' :: rest, v, d, r => by
      cases d with
      | map ty es =>
          intro h
          simp only [setitem] at h
          obtain ⟨c, hc, hr⟩ := except_map_ok _ _ _ h
          subst hr
          have ih := setitem_dictAlong (k' :: rest) v _ _ hc
          simp [dictAlong, dictGetT_insert_self, ih]
      | none => intro h; simp [setitem] at h
      | bool b => intro h; simp [setitem] at h
      | int n => intro h; simp [setitem] at h
      | str s => intro h; simp [setitem] at h

theorem delitem_dictAlong :
    ∀ (p : List Key) (d r : TValue),
      delitem p d = .ok r → dictAlong p r = true
  | [], d, r => by simp [delitem]
  | [k], d, r => by
      cases d with
      | map ty es =>
          intro h
          simp only [delitem] at h
          by_cases hs : (lookupT? es k).isSome
          · rw [if_pos hs] at h
            obtain rfl := Except.ok.inj h
            simp [dictAlong]
          · rw [if_neg hs] at h
            exact absurd h (by simp)
      | none => intro h; simp [delitem] at h
      | bool b => intro h; simp [delitem] at h
      | int n => intro h; simp [delitem] at h
      | str s => intro h; simp [delitem] at h
  | k :: k' :: rest, d, r => by
      cases d with
      | map ty es =>
          intro h
          simp only [delitem] at h
          obtain ⟨c, hc, hr⟩ := except_map_ok _ _ _ h
          subst hr
          have ih := delitem_dictAlong (k' :: rest) _ _ hc
          simp [dictAlong, dictGetT_insert_self, ih]
      | none => intro h; simp [delitem] at h
      | bool b => intro h; simp [delitem] at h
      | int n => intro h; simp [delitem] at h
      | str s => intro h; simp [delitem] at h

/-- **C10.** For every input mapping of any concrete container type and every
path on which they succeed, `setitem`, `delitem` and `update` return a builtin
`dict` at the top level and at every rebuilt ancestor along the path — the
path-based update engine does not preserve the input's container type. -/
theorem engine_returns_builtin_dict (p : List Key) (v : TValue)
    (f : TValue → TValue) (d r₁ r₂ r₃ : TValue) :
    (setitem p v d = .ok r₁ → dictAlong p r₁ = true) ∧
      (delitem p d = .ok r₂ → dictAlong p r₂ = true) ∧
      (update p f d = .ok r₃ → dictAlong p r₃ = true) := by
  refine ⟨setitem_dictAlong p v d r₁, delitem_dictAlong p d r₂, ?_⟩
  intro h
  simp only [update, Bind.bind, Except.bind] at h
  cases hg : getitem p d with
  | ok w =>
      rw [hg] at h
      exact setitem_dictAlong p (f w) d r₃ h
  | error e => rw [hg] at h; exact absurd h (by simp)

/-- Witness for `engine_returns_builtin_dict`: setting key `"a"` on an empty
`OrderedDict` returns a builtin `dict`. -/
theorem engine_returns_builtin_dict_witness :
    setitem [Key.str "a"] (TValue.int 1)
        (TValue.map ⟨"OrderedDict", true, true⟩ []) =
      .ok (TValue.map Mapping.dictTy [(Key.str "a", TValue.int 1)]) ∧
    dictAlong [Key.str "a"]
        (TValue.map Mapping.dictTy [(Key.str "a", TValue.int 1)]) = true :=
  ⟨rfl,
    (engine_returns_builtin_dict [Key.str "a"] (TValue.int 1) (fun v => v)
      (TValue.map ⟨"OrderedDict", true, true⟩ [])
      (TValue.map Mapping.dictTy [(Key.str "a", TValue.int 1)])
      TValue.none TValue.none).1 rfl⟩

end Typed

namespace HeapModel

/-!
A small object-heap model of `setitem`, to state what the shallow value model
cannot: that the original mapping object is never mutated, that sibling
entries of every rebuilt level are shared by reference with the original, and
that every rebuilt ancestor is a freshly allocated object.
-/

/-- An entry stored in a dictionary object: an immediate scalar, or a
reference to another dictionary object on the heap. -/
inductive HEntry where
  | noneV : HEntry
  | bool (b : Bool) : HEntry
  | int (n : Int) : HEntry
  | str (s : String) : HEntry
  | ref (a : Nat) : HEntry
deriving DecidableEq, Repr

/-- The entry list of one dictionary object. -/
abbrev HDict := List (Key × HEntry)

/-- The object heap: the allocated dictionary objects and the next fresh
address. -/
structure Heap where
  cells : List (Nat × HDict)
  next : Nat
deriving DecidableEq, Repr

/-- Read the dictionary object at an address. -/
def Heap.get (h : Heap) (a : Nat) : Option HDict :=
  (h.cells.find? (fun c => c.1 == a)).map (fun c => c.2)

/-- Allocate a new dictionary object, returning its (fresh) address. -/
def Heap.alloc (h : Heap) (d : HDict) : Nat × Heap :=
  (h.next, ⟨(h.next, d) :: h.cells, h.next + 1⟩)

/-- Every allocated address is below the allocation counter. -/
def Heap.WF (h : Heap) : Prop := ∀ c ∈ h.cells, c.1 < h.next

instance (h : Heap) : Decidable h.WF :=
  inferInstanceAs (Decidable (∀ c ∈ h.cells, c.1 < h.next))

/-- `h'` contains every object of `h`, unchanged, at the same address. -/
def Heap.Extends (h h' : Heap) : Prop :=
  h.next ≤ h'.next ∧
    ∀ a d, h.get a = Option.some d → h'.get a = Option.some d

/-- First-match lookup in a dictionary object. -/
def hlookup? (es : HDict) (k : Key) : Option HEntry :=
  match es with
  | [] => Option.none
  | (k', v) :: rest => if k' = k then Option.some v else hlookup? rest k

/-- `d.get(k)` with default `None`. -/
def hdictGet (es : HDict) (k : Key) : HEntry :=
  (hlookup? es k).getD HEntry.noneV

/-- Replace-first-or-append update of a dictionary object's entries. -/
def hdictInsert (k : Key) (v : HEntry) : HDict → HDict
  | [] => [(k, v)]
  | (k', v') :: rest =>
      if k' = k then (k', v) :: rest else (k', v') :: hdictInsert k v rest

/-- Python truthiness of a heap entry (a referenced dict is falsy when
empty). -/
def hfalsy (h : Heap) : HEntry → Bool
  | .noneV => true
  | .bool b => !b
  | .int n => n == 0
  | .str s => s == ""
  | .ref a =>
      match h.get a with
      | Option.some d => d.isEmpty
      | Option.none => false

/-- `setitem` from `fptools/dictionary.py`, run against the object heap: each
`{**_dict, ...}` display allocates a new dictionary object whose sibling
entries are the same heap entries as the original's; a falsy child is
replaced by a freshly allocated empty dict before recursing. -/
def setitem : List Key → HEntry → HEntry → Heap → Except PyErr (Nat × Heap)
  | [], _, _, _ => .error .indexError
  | [k], v, .ref a, h =>
      match h.get a with
      | Option.some d => .ok (h.alloc (hdictInsert k v d))
      | Option.none => .error .typeError
  | [_], _, _, _ => .error .typeError
  | k :: k' :: rest, v, .ref a, h =>
      match h.get a with
      | Option.some d =>
          let child := hdictGet d k
          if hfalsy h child then
            let fresh := h.alloc []
            (setitem (k' :: rest) v (.ref fresh.1) fresh.2).map fun r =>
              r.2.alloc (hdictInsert k (.ref r.1) d)
          else
            (setitem (k' :: rest) v child h).map fun r =>
              r.2.alloc (hdictInsert k (.ref r.1) d)
      | Option.none => .error .typeError
  | _ :: _ :: _, _, _, _ => .error .typeError

theorem hlookup_insert_self (k : Key) (v : HEntry) (es : HDict) :
    hlookup? (hdictInsert k v es) k = Option.some v := by
  induction es with
  | nil => simp [hdictInsert, hlookup?]
  | cons e rest ih =>
      obtain ⟨k', v'⟩ := e
      by_cases h : k' = k <;> simp [hdictInsert, hlookup?, h, ih]

theorem hdictGet_insert_self (k : Key) (v : HEntry) (es : HDict) :
    hdictGet (hdictInsert k v es) k = v := by
  simp [hdictGet, hlookup_insert_self]

theorem hlookup_insert_ne (k k' : Key) (v : HEntry) (es : HDict)
    (h : k' ≠ k) : hlookup? (hdictInsert k v es) k' = hlookup? es k' := by
  induction es with
  | nil => simp [hdictInsert, hlookup?, Ne.symm h]
  | cons e rest ih =>
      obtain ⟨k₀, v₀⟩ := e
      by_cases h₀ : k₀ = k
      · have hne : k₀ ≠ k' := fun e => h ((Eq.symm e).trans h₀)
        simp [hdictInsert, hlookup?, h₀, hne, Ne.symm h]
      · simp [hdictInsert, hlookup?, h₀, ih]

theorem hdictGet_insert_ne (k k' : Key) (v : HEntry) (es : HDict)
    (h : k' ≠ k) : hdictGet (hdictInsert k v es) k' = hdictGet es k' := by
  simp [hdictGet, hlookup_insert_ne k k' v es h]

theorem Heap.get_some_lt (h : Heap) (hwf : h.WF) (a : Nat) (d : HDict)
    (hg : h.get a = Option.some d) : a < h.next := by
  simp only [Heap.get, Option.map_eq_some'] at hg
  obtain ⟨c, hc, hcd⟩ := hg
  have hmem := List.mem_of_find?_eq_some hc
  have hp := List.find?_some hc
  simp only [beq_iff_eq] at hp
  exact hp ▸ hwf c hmem

theorem Heap.get_none_of_ge (h : Heap) (hwf : h.WF) (a : Nat)
    (ha : h.next ≤ a) : h.get a = Option.none := by
  cases hg : h.get a with
  | none => rfl
  | some d =>
      exact absurd (h.get_some_lt hwf a d hg) (Nat.not_lt.mpr ha)

theorem Heap.alloc_get_new (h : Heap) (d : HDict) :
    (h.alloc d).2.get (h.alloc d).1 = Option.some d := by
  simp [Heap.alloc, Heap.get, List.find?]

theorem Heap.alloc_get_old (h : Heap) (hwf : h.WF) (d : HDict) (a : Nat)
    (e : HDict) (hg : h.get a = Option.some e) :
    (h.alloc d).2.get a = Option.some e := by
  have hlt := h.get_some_lt hwf a e hg
  have hne : (h.next == a) = false := by
    simp [Nat.ne_of_gt hlt]
  simp only [Heap.alloc, Heap.get, List.find?, hne] at *
  exact hg

theorem Heap.alloc_WF (h : Heap) (hwf : h.WF) (d : HDict) :
    (h.alloc d).2.WF := by
  intro c hc
  simp only [Heap.alloc, List.mem_cons] at hc
  rcases hc with hc | hc
  · simp [hc, Heap.alloc]
  · exact Nat.lt_succ_of_lt (hwf c hc)

theorem Heap.alloc_extends (h : Heap) (hwf : h.WF) (d : HDict) :
    h.Extends (h.alloc d).2 :=
  ⟨Nat.le_succ _, fun a e hg => h.alloc_get_old hwf d a e hg⟩

theorem Heap.Extends.refl (h : Heap) : h.Extends h :=
  ⟨Nat.le_refl _, fun _ _ hg => hg⟩

theorem Heap.Extends.trans {h₁ h₂ h₃ : Heap} (h12 : h₁.Extends h₂)
    (h23 : h₂.Extends h₃) : h₁.Extends h₃ :=
  ⟨Nat.le_trans h12.1 h23.1, fun a d hg => h23.2 a d (h12.2 a d hg)⟩

/-- The shape of a successful `setitem` against original heap `h₀`: at every
rebuilt level of the path, the result address is fresh (unallocated in `h₀`),
its sibling entries are the very same heap entries as the original level's
(referential sharing), and the entry at the path key is a reference to the
recursively rebuilt child, whose own original is either the substituted empty
dict or the original child object read from `h₀`. -/
def SetOK (h₀ : Heap) : List Key → HDict → Nat → Heap → Prop
  | [], _, _, _ => True
  | [k], d₀, ra, h' =>
      h₀.get ra = Option.none ∧
        ∃ d', h'.get ra = Option.some d' ∧
          ∀ k', k' ≠ k → hdictGet d' k' = hdictGet d₀ k'
  | k :: k' :: rest, d₀, ra, h' =>
      h₀.get ra = Option.none ∧
        ∃ d', h'.get ra = Option.some d' ∧
          (∀ k'', k'' ≠ k → hdictGet d' k'' = hdictGet d₀ k'') ∧
          ∃ ca d₁, hdictGet d' k = .ref ca ∧
            (d₁ = [] ∨
              ∃ a₁, hdictGet d₀ k = .ref a₁ ∧ h₀.get a₁ = Option.some d₁) ∧
            SetOK h₀ (k' :: rest) d₁ ca h'

theorem SetOK_mono_right (h₀ : Heap) :
    ∀ (p : List Key) (d₀ : HDict) (ra : Nat) (hB hC : Heap),
      SetOK h₀ p d₀ ra hB → hB.Extends hC → SetOK h₀ p d₀ ra hC
  | [], _, _, _, _ => fun _ _ => trivial
  | [k], d₀, ra, hB, hC => by
      intro hs hext
      obtain ⟨hfresh, d', hget, hsib⟩ := hs
      exact ⟨hfresh, d', hext.2 ra d' hget, hsib⟩
  | k :: k' :: rest, d₀, ra, hB, hC => by
      intro hs hext
      obtain ⟨hfresh, d', hget, hsib, ca, d₁, hchild, hd₁, hrec⟩ := hs
      exact ⟨hfresh, d', hext.2 ra d' hget, hsib, ca, d₁, hchild, hd₁,
        SetOK_mono_right h₀ (k' :: rest) d₁ ca hB hC hrec hext⟩

theorem SetOK_of_empty (h hA : Heap) (hExt : h.Extends hA) :
    ∀ (p : List Key) (ca : Nat) (hB hC : Heap),
      SetOK hA p [] ca hB → hB.Extends hC → SetOK h p [] ca hC
  | [], _, _, _ => fun _ _ => trivial
  | [k], ca, hB, hC => by
      intro hs hext
      obtain ⟨hfresh, d', hget, hsib⟩ := hs
      refine ⟨?_, d', hext.2 ca d' hget, hsib⟩
      cases hg : h.get ca with
      | none => rfl
      | some d =>
          rw [hExt.2 ca d hg] at hfresh
          exact absurd hfresh (by simp)
  | k :: k' :: rest, ca, hB, hC => by
      intro hs hext
      obtain ⟨hfresh, d', hget, hsib, ca', d₁, hchild, hd₁, hrec⟩ := hs
      have hd₁e : d₁ = [] := by
        rcases hd₁ with h1 | ⟨a₁, ha₁, _⟩
        · exact h1
        · simp [hdictGet, hlookup?] at ha₁
      subst hd₁e
      refine ⟨?_, d', hext.2 ca d' hget, hsib, ca', [], hchild, Or.inl rfl,
        SetOK_of_empty h hA hExt (k' :: rest) ca' hB hC hrec hext⟩
      cases hg : h.get ca with
      | none => rfl
      | some d =>
          rw [hExt.2 ca d hg] at hfresh
          exact absurd hfresh (by simp)

/-- **C2.** `setitem` never mutates its argument: every object of the
original heap is unchanged in the result heap (so the original mapping still
equals its previous value), the result and every rebuilt ancestor along the
path are freshly allocated objects, and at each rebuilt level all sibling
entries are shared by reference with the original level. -/
theorem setitem_immutable_and_shares :
    ∀ (p : List Key) (v e : HEntry) (h : Heap) (ra : Nat) (h' : Heap),
      Heap.WF h → setitem p v e h = .ok (ra, h') →
      Heap.WF h' ∧ h.Extends h' ∧
        ∃ a₀ d₀, e = .ref a₀ ∧ h.get a₀ = Option.some d₀ ∧
          SetOK h p d₀ ra h'
  | [], v, e, h, ra, h' => by intro _ hok; simp [setitem] at hok
  | [k], v, e, h, ra, h' => by
      intro hwf hok
      cases e with
      | ref a =>
          cases hget : h.get a with
          | none => simp [setitem, hget] at hok
          | some d =>
              simp only [setitem, hget, Except.ok.injEq] at hok
              obtain ⟨hra, hh'⟩ := Prod.mk.injEq .. ▸ hok
              · rw [← hra, ← hh']
                refine ⟨h.alloc_WF hwf _, h.alloc_extends hwf _,
                  a, d, rfl, hget, ?_⟩
                refine ⟨h.get_none_of_ge hwf _ (Nat.le_refl _),
                  hdictInsert k v d, h.alloc_get_new _, ?_⟩
                intro k' hk'
                exact hdictGet_insert_ne k k' v d hk'
      | noneV => simp [setitem] at hok
      | bool b => simp [setitem] at hok
      | int n => simp [setitem] at hok
      | str s => simp [setitem] at hok
  | k :: k' :: rest, v, e, h, ra, h' => by
      intro hwf hok
      cases e with
      | ref a =>
          cases hget : h.get a with
          | none => simp [setitem, hget] at hok
          | some d =>
              simp only [setitem, hget] at hok
              by_cases hf : hfalsy h (hdictGet d k) = true
              · rw [if_pos hf] at hok
                obtain ⟨⟨ca, h₂⟩, hrec, hpair⟩ := except_map_ok _ _ _ hok
                have hwf₁ : Heap.WF (h.alloc []).2 := h.alloc_WF hwf []
                have hext₁ : h.Extends (h.alloc []).2 := h.alloc_extends hwf []
                obtain ⟨hwf₂, hext₂, a₀', d₀', hrefeq, hget', hsok⟩ :=
                  setitem_immutable_and_shares (k' :: rest) v _ _ ca h₂
                    hwf₁ hrec
                obtain rfl : (h.alloc []).1 = a₀' := HEntry.ref.inj hrefeq
                have hd₀' : d₀' = [] := by
                  have := (h.alloc []).2.alloc_get_new
                  rw [h.alloc_get_new []] at hget'
                  exact (Option.some.inj hget').symm
                subst hd₀'
                obtain ⟨hra, hh'⟩ := Prod.mk.injEq .. ▸ hpair.symm
                · subst hra
                  subst hh'
                  have hexth₂ : h.Extends h₂ := hext₁.trans hext₂
                  have hext₃ : h₂.Extends (h₂.alloc (hdictInsert k (.ref ca) d)).2 :=
                    h₂.alloc_extends hwf₂ _
                  refine ⟨h₂.alloc_WF hwf₂ _, hexth₂.trans hext₃,
                    a, d, rfl, hget, ?_⟩
                  refine ⟨h.get_none_of_ge hwf _ hexth₂.1,
                    hdictInsert k (.ref ca) d, h₂.alloc_get_new _,
                    fun k'' hk'' => hdictGet_insert_ne k k'' _ d hk'',
                    ca, [], hdictGet_insert_self k _ d, Or.inl rfl, ?_⟩
                  exact SetOK_of_empty h _ hext₁ (k' :: rest) ca h₂ _ hsok hext₃
              · rw [if_neg hf] at hok
                obtain ⟨⟨ca, h₂⟩, hrec, hpair⟩ := except_map_ok _ _ _ hok
                obtain ⟨hwf₂, hext₂, a₁, d₁, hrefeq, hget₁, hsok⟩ :=
                  setitem_immutable_and_shares (k' :: rest) v _ _ ca h₂
                    hwf hrec
                obtain ⟨hra, hh'⟩ := Prod.mk.injEq .. ▸ hpair.symm
                · subst hra
                  subst hh'
                  have hext₃ : h₂.Extends (h₂.alloc (hdictInsert k (.ref ca) d)).2 :=
                    h₂.alloc_extends hwf₂ _
                  refine ⟨h₂.alloc_WF hwf₂ _, hext₂.trans hext₃,
                    a, d, rfl, hget, ?_⟩
                  refine ⟨h.get_none_of_ge hwf _ hext₂.1,
                    hdictInsert k (.ref ca) d, h₂.alloc_get_new _,
                    fun k'' hk'' => hdictGet_insert_ne k k'' _ d hk'',
                    ca, d₁, hdictGet_insert_self k _ d,
                    Or.inr ⟨a₁, hrefeq, hget₁⟩, ?_⟩
                  exact SetOK_mono_right h (k' :: rest) d₁ ca h₂ _ hsok hext₃
      | noneV => simp [setitem] at hok
      | bool b => simp [setitem] at hok
      | int n => simp [setitem] at hok
      | str s => simp [setitem] at hok

/-- The heap holding `{"a": {"b": 5}}`: the inner dict at address 0, the
outer at address 1. -/
def exHeap0 : Heap :=
  ⟨[(0, [(Key.str "b", HEntry.int 5)]), (1, [(Key.str "a", HEntry.ref 0)])], 2⟩

/-- The heap after `setitem(["a", "c"], 9, ref 1)`: the rebuilt inner dict at
address 2, the rebuilt outer dict at address 3, the original objects
untouched. -/
def exHeap1 : Heap :=
  ⟨[(3, [(Key.str "a", HEntry.ref 2)]),
    (2, [(Key.str "b", HEntry.int 5), (Key.str "c", HEntry.int 9)]),
    (0, [(Key.str "b", HEntry.int 5)]),
    (1, [(Key.str "a", HEntry.ref 0)])], 4⟩

/-- Witness for `setitem_immutable_and_shares` on the spec's example
`setitem(["a", "c"], 9, {"a": {"b": 5}})`, which returns
`{"a": {"b": 5, "c": 9}}` with the original input unchanged. -/
theorem setitem_immutable_and_shares_witness :
    Heap.WF exHeap0 ∧
      setitem [Key.str "a", Key.str "c"] (HEntry.int 9) (HEntry.ref 1)
          exHeap0 = .ok (3, exHeap1) ∧
      (Heap.WF exHeap1 ∧ exHeap0.Extends exHeap1 ∧
        ∃ a₀ d₀, HEntry.ref 1 = HEntry.ref a₀ ∧
          exHeap0.get a₀ = Option.some d₀ ∧
          SetOK exHeap0 [Key.str "a", Key.str "c"] d₀ 3 exHeap1) ∧
      Dictionary.setitem [Key.str "a", Key.str "c"] (Value.int 9)
          (Value.dict [(Key.str "a", Value.dict [(Key.str "b", Value.int 5)])]) =
        .ok (Value.dict [(Key.str "a",
          Value.dict [(Key.str "b", Value.int 5), (Key.str "c", Value.int 9)])]) :=
  ⟨by decide, by decide,
    setitem_immutable_and_shares [Key.str "a", Key.str "c"] (HEntry.int 9)
      (HEntry.ref 1) exHeap0 3 exHeap1 (by decide) (by decide),
    by decide⟩

end HeapModel
